import Mathlib

/-!
Shallow embedding of `src/bindle_utils.rs` from the `hippo-cli` repository.

The data model (`Label`, `Conditions`, `Parcel`, `Invoice`) mirrors the parts
of the `bindle` schema that the code reads.  The helper functions
(`has_annotation`, `requires`, `is_member_of`, `parcels_in`,
`parcels_required_by_acc`, `parcels_required_by`) are transcribed from the
Rust source.  The Rust recursion `parcels_required_by_acc` carries no
termination guarantee, so it is embedded with an explicit fuel parameter:
`none` means the recursion did not finish within the given fuel, and a result
that is `none` for every fuel is a non-terminating run.

`Vec::pop` removes the last element, modelled by `pop_last`.  The itertools
combinators `unique` / `unique_by` keep the first occurrence of each key,
modelled by `unique_by_key`.
-/

structure Label where
  sha256 : String
  annotations : Option (List (String × String))
deriving DecidableEq

structure Conditions where
  member_of : Option (List String)
  requires : Option (List String)
deriving DecidableEq

structure Parcel where
  label : Label
  conditions : Option Conditions
deriving DecidableEq

structure Invoice where
  parcel : Option (List Parcel)
deriving DecidableEq

/-- `Vec::pop` on a Rust vector removes and returns the LAST element;
`pop_last l = some (x, rest)` means `l = rest ++ [x]`. -/
def pop_last {α : Type} : List α → Option (α × List α)
  | [] => none
  | [x] => some (x, [])
  | x :: y :: t =>
    match pop_last (y :: t) with
    | none => none
    | some (g, rest) => some (g, x :: rest)

/-- Itertools `unique_by` with an explicit set of already-seen keys:
keeps the first occurrence of each key, in order. -/
def unique_by_key {α β : Type} [DecidableEq β] (key : α → β) : List β → List α → List α
  | _, [] => []
  | seen, x :: xs =>
    if key x ∈ seen then unique_by_key key seen xs
    else x :: unique_by_key key (key x :: seen) xs

/-- Itertools `unique_by`. -/
def unique_by {α β : Type} [DecidableEq β] (key : α → β) (l : List α) : List α :=
  unique_by_key key [] l

/-- Itertools `unique`. -/
def unique {α : Type} [DecidableEq α] (l : List α) : List α :=
  unique_by_key id [] l

/-- `ParcelHelpers::has_annotation` from `bindle_utils.rs`:
the annotation map is modelled as an association list. -/
def has_annotation (p : Parcel) (key : String) : Bool :=
  match p.label.annotations with
  | none => false
  | some map => map.any (fun kv => kv.1 == key)

/-- `ParcelHelpers::requires` from `bindle_utils.rs`. -/
def requires (p : Parcel) : List String :=
  match p.conditions with
  | none => []
  | some conditions =>
    match conditions.requires with
    | none => []
    | some groups => groups

/-- `ParcelHelpers::is_member_of` from `bindle_utils.rs`. -/
def is_member_of (p : Parcel) (group : String) : Bool :=
  match p.conditions with
  | none => false
  | some conditions =>
    match conditions.member_of with
    | none => false
    | some groups => groups.contains group

/-- `InvoiceHelpers::parcels_in` from `bindle_utils.rs`. -/
def parcels_in (inv : Invoice) (group : String) : List Parcel :=
  match inv.parcel with
  | none => []
  | some parcels => parcels.filter (fun p => is_member_of p group)

/-- `parcels_required_by_acc` from `bindle_utils.rs`, fuel-indexed.
Each recursive call consumes one unit of fuel; `none` means the Rust
recursion would still be running after that many calls. -/
def parcels_required_by_acc (inv : Invoice) : Nat → List String → List Parcel → Option (List Parcel)
  | 0, _, _ => none
  | fuel + 1, groups, acc =>
    match pop_last groups with
    | none => some acc
    | some (group, rest) =>
      let members := parcels_in inv group
      let required_groups := unique ((members.map (fun p => requires p)).flatten)
      let new_groups := unique (rest ++ required_groups)
      parcels_required_by_acc inv fuel new_groups (acc ++ members)

/-- `InvoiceHelpers::parcels_required_by` from `bindle_utils.rs`, fuel-indexed. -/
def parcels_required_by (inv : Invoice) (p : Parcel) (fuel : Nat) : Option (List Parcel) :=
  ( parcels_required_by_acc inv fuel ( requires p) []).map
    (fun a => unique_by (fun q => q.label.sha256) a)

/-- Token-manager selection in `BindleConnectionInfo::new`:
`HttpBasic` when both credentials are present, `NoToken` otherwise. -/
inductive TokenManagerKind : Type
  | noToken : TokenManagerKind
  | httpBasic : String → String → TokenManagerKind
deriving DecidableEq

structure BindleConnectionInfo where
  base_url : String
  allow_insecure : Bool
  token_manager : TokenManagerKind
deriving DecidableEq

/-- `BindleConnectionInfo::new` from `bindle_utils.rs`. -/
def BindleConnectionInfo.new (base_url : String) (allow_insecure : Bool)
    (username : Option String) (password : Option String) : BindleConnectionInfo :=
  let token_manager : TokenManagerKind :=
    match username, password with
    | some u, some p => TokenManagerKind.httpBasic u p
    | _, _ => TokenManagerKind.noToken
  ⟨base_url, allow_insecure, token_manager⟩

/-- Modelled from the spec: the token managers `NoToken` and `HttpBasic`
live in the external `bindle` client crate, outside this repository.  Per the
spec, "when credentials are absent, requests carry no authentication"; the
basic-auth manager attaches an Authorization header.  Requests are modelled
as header lists. -/
def applyAuthHeader : TokenManagerKind → List (String × String) → List (String × String)
  | TokenManagerKind.noToken, headers => headers
  | TokenManagerKind.httpBasic u p, headers =>
      headers ++ [("Authorization", "Basic " ++ u ++ ":" ++ p)]

/-! ### Concrete scenario manifests from the spec -/

/-- Scenario seed parcel: requires `[db, web]`, member of nothing. -/
def parcelA : Parcel := ⟨⟨"sha-a", none⟩, some ⟨none, some ["db", "web"]⟩⟩

/-- Member of `db`; requires `[cache]` (Scenarios B, C, D). -/
def parcelB : Parcel := ⟨⟨"sha-b", none⟩, some ⟨some ["db"], some ["cache"]⟩⟩

/-- Member of `web`; requires nothing (Scenario B). -/
def parcelCb : Parcel := ⟨⟨"sha-c", none⟩, some ⟨some ["web"], none⟩⟩

/-- Member of `web`; requires `[cache]` (Scenarios C and D). -/
def parcelCc : Parcel := ⟨⟨"sha-c", none⟩, some ⟨some ["web"], some ["cache"]⟩⟩

/-- Member of `cache`; requires nothing (Scenarios B and C). -/
def parcelDb : Parcel := ⟨⟨"sha-d", none⟩, some ⟨some ["cache"], none⟩⟩

/-- Member of `cache`; requires `[web]` (Scenario D, the cycle). -/
def parcelDd : Parcel := ⟨⟨"sha-d", none⟩, some ⟨some ["cache"], some ["web"]⟩⟩

/-- Scenario A/B manifest: groups `db:[parcelB]`, `web:[parcelC]`,
`cache:[parcelD]`; `parcelB` requires `[cache]`. -/
def invB : Invoice := ⟨some [parcelA, parcelB, parcelCb, parcelDb]⟩

/-- Scenario C (diamond) manifest: `parcelC` also requires `[cache]`. -/
def invC : Invoice := ⟨some [parcelA, parcelB, parcelCc, parcelDb]⟩

/-- Scenario D (cycle) manifest: additionally `parcelD` requires `[web]`. -/
def invD : Invoice := ⟨some [parcelA, parcelB, parcelCc, parcelDd]⟩

/-- A parcel with no conditions block at all (so no requires list). -/
def parcelNoReq : Parcel := ⟨⟨"sha-x", none⟩, none⟩

/-- A manifest with no parcel field. -/
def invNone : Invoice := ⟨none⟩

/-! ### Properties of `pop_last` -/

theorem popl_cons {α : Type} (x : α) (l : List α) :
    ∃ g rest, pop_last (x :: l) = some (g, rest) ∧ x :: l = rest ++ [g] := by
  induction l generalizing x with
  | nil => exact ⟨x, [], rfl, rfl⟩
  | cons y t ih =>
    obtain ⟨g, rest, hp, he⟩ := ih y
    refine ⟨g, x :: rest, ?_, ?_⟩
    · simp [pop_last, hp]
    · simp [he]

theorem popl_eq_nil {α : Type} {l : List α} (h : pop_last l = none) : l = [] := by
  cases l with
  | nil => rfl
  | cons x t =>
    obtain ⟨g, rest, hp, _⟩ := popl_cons x t
    rw [hp] at h
    exact absurd h (by simp)

theorem popl_decomp {α : Type} {l rest : List α} {g : α}
    (h : pop_last l = some (g, rest)) : l = rest ++ [g] := by
  cases l with
  | nil => exact absurd h (by simp [pop_last])
  | cons x t =>
    obtain ⟨g', rest', hp, he⟩ := popl_cons x t
    rw [hp] at h
    obtain ⟨rfl, rfl⟩ : g' = g ∧ rest' = rest := by
      constructor <;> [exact congrArg Prod.fst (Option.some.inj h);
        exact congrArg Prod.snd (Option.some.inj h)]
    exact he

/-! ### Properties of `unique_by_key` -/

theorem ubk_subset {α β : Type} [DecidableEq β] (key : α → β) :
    ∀ (seen : List β) (l : List α) (x : α), x ∈ unique_by_key key seen l → x ∈ l := by
  intro seen l
  induction l generalizing seen with
  | nil => intro x hx; simp [unique_by_key] at hx
  | cons a t ih =>
    intro x hx
    simp only [unique_by_key] at hx
    by_cases h : key a ∈ seen
    · rw [if_pos h] at hx
      exact List.mem_cons_of_mem a (ih seen x hx)
    · rw [if_neg h] at hx
      rcases List.mem_cons.mp hx with h1 | h1
      · exact h1 ▸ List.mem_cons_self a t
      · exact List.mem_cons_of_mem a (ih _ x h1)

theorem ubk_notin_seen {α β : Type} [DecidableEq β] (key : α → β) :
    ∀ (seen : List β) (l : List α) (x : α), x ∈ unique_by_key key seen l → key x ∉ seen := by
  intro seen l
  induction l generalizing seen with
  | nil => intro x hx; simp [unique_by_key] at hx
  | cons a t ih =>
    intro x hx
    simp only [unique_by_key] at hx
    by_cases h : key a ∈ seen
    · rw [if_pos h] at hx
      exact ih seen x hx
    · rw [if_neg h] at hx
      rcases List.mem_cons.mp hx with h1 | h1
      · rw [h1]; exact h
      · intro hc
        exact ih _ x h1 (List.mem_cons_of_mem _ hc)

theorem ubk_pairwise {α β : Type} [DecidableEq β] (key : α → β) :
    ∀ (seen : List β) (l : List α),
      List.Pairwise (fun x y => key x ≠ key y) (unique_by_key key seen l) := by
  intro seen l
  induction l generalizing seen with
  | nil => simp [unique_by_key]
  | cons a t ih =>
    simp only [unique_by_key]
    by_cases h : key a ∈ seen
    · rw [if_pos h]; exact ih seen
    · rw [if_neg h]
      refine List.Pairwise.cons ?_ (ih _)
      intro y hy
      have := ubk_notin_seen key _ t y hy
      intro hc
      exact this (hc ▸ List.mem_cons_self _ _)

theorem ubk_id_mem {α : Type} [DecidableEq α] :
    ∀ (seen l : List α) (x : α), x ∈ unique_by_key id seen l ↔ (x ∈ l ∧ x ∉ seen) := by
  intro seen l
  induction l generalizing seen with
  | nil => intro x; simp [unique_by_key]
  | cons a t ih =>
    intro x
    simp only [unique_by_key, id_eq]
    by_cases h : a ∈ seen
    · rw [if_pos h, ih seen]
      constructor
      · rintro ⟨hx, hs⟩
        exact ⟨List.mem_cons_of_mem a hx, hs⟩
      · rintro ⟨hx, hs⟩
        rcases List.mem_cons.mp hx with h1 | h1
        · exact absurd (h1 ▸ h) hs
        · exact ⟨h1, hs⟩
    · rw [if_neg h]
      constructor
      · intro hx
        rcases List.mem_cons.mp hx with h1 | h1
        · exact ⟨h1 ▸ List.mem_cons_self a t, h1 ▸ h⟩
        · obtain ⟨ht, hs⟩ := (ih _ x).mp h1
          exact ⟨List.mem_cons_of_mem a ht,
            fun hc => hs (List.mem_cons_of_mem _ hc)⟩
      · rintro ⟨hx, hs⟩
        by_cases hxa : x = a
        · exact hxa ▸ List.mem_cons_self a _
        · rcases List.mem_cons.mp hx with h1 | h1
          · exact absurd h1 hxa
          · refine List.mem_cons_of_mem a ((ih _ x).mpr ⟨h1, ?_⟩)
            intro hc
            rcases List.mem_cons.mp hc with h2 | h2
            · exact hxa h2
            · exact hs h2

theorem unique_mem_iff {α : Type} [DecidableEq α] (l : List α) (x : α) :
    x ∈ unique l ↔ x ∈ l := by
  rw [unique, ubk_id_mem]
  simp

theorem ubk_keys {α β : Type} [DecidableEq β] (key : α → β) :
    ∀ (seen : List β) (l : List α) (x : α), x ∈ l →
      key x ∈ seen ∨ ∃ y, y ∈ unique_by_key key seen l ∧ key y = key x := by
  intro seen l
  induction l generalizing seen with
  | nil => intro x hx; simp at hx
  | cons a t ih =>
    intro x hx
    simp only [unique_by_key]
    by_cases h : key a ∈ seen
    · rw [if_pos h]
      rcases List.mem_cons.mp hx with h1 | h1
      · left; rw [h1]; exact h
      · exact ih seen x h1
    · rw [if_neg h]
      rcases List.mem_cons.mp hx with h1 | h1
      · right; exact ⟨a, List.mem_cons_self _ _, by rw [h1]⟩
      · rcases ih (key a :: seen) x h1 with h2 | h2
        · rcases List.mem_cons.mp h2 with h3 | h3
          · right; exact ⟨a, List.mem_cons_self _ _, h3.symm⟩
          · left; exact h3
        · obtain ⟨y, hy, hk⟩ := h2
          right; exact ⟨y, List.mem_cons_of_mem a hy, hk⟩

theorem ubk_first {α β : Type} [DecidableEq β] (key : α → β) :
    ∀ (seen : List β) (l : List α) (x : α), x ∈ unique_by_key key seen l →
      ∃ t₁ t₂, l = t₁ ++ x :: t₂ ∧ ∀ z ∈ t₁, key z ≠ key x := by
  intro seen l
  induction l generalizing seen with
  | nil => intro x hx; simp [unique_by_key] at hx
  | cons a t ih =>
    intro x hx
    simp only [unique_by_key] at hx
    by_cases h : key a ∈ seen
    · rw [if_pos h] at hx
      obtain ⟨t₁, t₂, he, hne⟩ := ih seen x hx
      have hxs : key x ∉ seen := ubk_notin_seen key seen t x hx
      refine ⟨a :: t₁, t₂, by rw [he]; rfl, ?_⟩
      intro z hz
      rcases List.mem_cons.mp hz with h1 | h1
      · rw [h1]; intro hc; exact hxs (hc ▸ h)
      · exact hne z h1
    · rw [if_neg h] at hx
      rcases List.mem_cons.mp hx with h1 | h1
      · exact ⟨[], t, by rw [h1]; rfl, by intro z hz; simp at hz⟩
      · obtain ⟨t₁, t₂, he, hne⟩ := ih _ x h1
        have hxs : key x ∉ key a :: seen := ubk_notin_seen key _ t x h1
        refine ⟨a :: t₁, t₂, by rw [he]; rfl, ?_⟩
        intro z hz
        rcases List.mem_cons.mp hz with h2 | h2
        · rw [h2]
          intro hc
          exact hxs (hc ▸ List.mem_cons_self _ _)
        · exact hne z h2

theorem ubk_length {α β : Type} [DecidableEq β] (key : α → β) :
    ∀ (seen : List β) (l : List α), (unique_by_key key seen l).length ≤ l.length := by
  intro seen l
  induction l generalizing seen with
  | nil => simp [unique_by_key]
  | cons a t ih =>
    simp only [unique_by_key]
    by_cases h : key a ∈ seen
    · rw [if_pos h]
      exact Nat.le_succ_of_le (ih seen)
    · rw [if_neg h]
      simpa using Nat.succ_le_succ (ih (key a :: seen))

/-! ### Properties of `parcels_required_by_acc` -/

theorem acc_zero (inv : Invoice) (groups : List String) (acc : List Parcel) :
    parcels_required_by_acc inv 0 groups acc = none := rfl

theorem acc_step_none {groups : List String} (h : pop_last groups = none)
    (inv : Invoice) (fuel : Nat) (acc : List Parcel) :
    parcels_required_by_acc inv (fuel + 1) groups acc = some acc := by
  simp [parcels_required_by_acc, h]

theorem acc_step_some {groups : List String} {g : String} {rest : List String}
    (h : pop_last groups = some (g, rest)) (inv : Invoice) (fuel : Nat) (acc : List Parcel) :
    parcels_required_by_acc inv (fuel + 1) groups acc =
      parcels_required_by_acc inv fuel
        ( unique (rest ++ unique ((( parcels_in inv g).map (fun p => requires p)).flatten)))
        (acc ++ parcels_in inv g) := by
  simp [parcels_required_by_acc, h]

theorem acc_mono (inv : Invoice) :
    ∀ fuel fuel' (groups : List String) (acc r : List Parcel), fuel ≤ fuel' →
      parcels_required_by_acc inv fuel groups acc = some r →
      parcels_required_by_acc inv fuel' groups acc = some r := by
  intro fuel
  induction fuel with
  | zero =>
    intro fuel' groups acc r _ h
    rw [acc_zero] at h
    exact absurd h (by simp)
  | succ n ih =>
    intro fuel' groups acc r hle h
    obtain ⟨m, rfl⟩ : ∃ m, fuel' = m + 1 := ⟨fuel' - 1, by omega⟩
    cases hp : pop_last groups with
    | none =>
      rw [acc_step_none hp] at h ⊢
      exact h
    | some gr =>
      obtain ⟨g, rest⟩ := gr
      rw [acc_step_some hp] at h ⊢
      exact ih m _ _ r (by omega) h

theorem acc_det {inv : Invoice} {fuel fuel' : Nat} {groups : List String}
    {acc r r' : List Parcel}
    (h : parcels_required_by_acc inv fuel groups acc = some r)
    (h' : parcels_required_by_acc inv fuel' groups acc = some r') : r = r' := by
  rcases Nat.le_total fuel fuel' with hle | hle
  · have := acc_mono inv fuel fuel' groups acc r hle h
    rw [this] at h'
    exact Option.some.inj h'
  · have := acc_mono inv fuel' fuel groups acc r' hle h'
    rw [this] at h
    exact (Option.some.inj h).symm

theorem acc_sub (inv : Invoice) :
    ∀ fuel (groups : List String) (acc r : List Parcel),
      parcels_required_by_acc inv fuel groups acc = some r → ∀ x ∈ acc, x ∈ r := by
  intro fuel
  induction fuel with
  | zero =>
    intro groups acc r h
    rw [acc_zero] at h
    exact absurd h (by simp)
  | succ n ih =>
    intro groups acc r h x hx
    cases hp : pop_last groups with
    | none =>
      rw [acc_step_none hp] at h
      exact (Option.some.inj h) ▸ hx
    | some gr =>
      obtain ⟨g, rest⟩ := gr
      rw [acc_step_some hp] at h
      exact ih _ _ r h x (List.mem_append_left _ hx)

theorem acc_groups (inv : Invoice) :
    ∀ fuel (groups : List String) (acc r : List Parcel),
      parcels_required_by_acc inv fuel groups acc = some r →
      ∀ g ∈ groups, ∀ m ∈ parcels_in inv g, m ∈ r := by
  intro fuel
  induction fuel with
  | zero =>
    intro groups acc r h
    rw [acc_zero] at h
    exact absurd h (by simp)
  | succ n ih =>
    intro groups acc r h g hg m hm
    cases hp : pop_last groups with
    | none =>
      rw [popl_eq_nil hp] at hg
      exact absurd hg (List.not_mem_nil g)
    | some gr =>
      obtain ⟨g0, rest⟩ := gr
      rw [acc_step_some hp] at h
      rw [popl_decomp hp] at hg
      rcases List.mem_append.mp hg with hr | hg0
      · refine ih _ _ r h g ?_ m hm
        exact (unique_mem_iff _ g).mpr (List.mem_append_left _ hr)
      · have : g = g0 := by simpa using hg0
        subst this
        exact acc_sub inv _ _ _ r h m (List.mem_append_right _ hm)

theorem acc_closure (inv : Invoice) :
    ∀ fuel (groups : List String) (acc r : List Parcel),
      parcels_required_by_acc inv fuel groups acc = some r →
      (∀ q ∈ acc, ∀ L ∈ requires q, L ∈ groups ∨ ∀ m ∈ parcels_in inv L, m ∈ r) →
      ∀ q ∈ r, ∀ L ∈ requires q, ∀ m ∈ parcels_in inv L, m ∈ r := by
  intro fuel
  induction fuel with
  | zero =>
    intro groups acc r h
    rw [acc_zero] at h
    exact absurd h (by simp)
  | succ n ih =>
    intro groups acc r h hpre
    cases hp : pop_last groups with
    | none =>
      have hg : groups = [] := popl_eq_nil hp
      rw [acc_step_none hp] at h
      obtain rfl : acc = r := Option.some.inj h
      intro q hq L hL m hm
      rcases hpre q hq L hL with hin | hdone
      · rw [hg] at hin
        exact absurd hin (List.not_mem_nil L)
      · exact hdone m hm
    | some gr =>
      obtain ⟨g0, rest⟩ := gr
      rw [acc_step_some hp] at h
      refine ih _ _ r h ?_
      intro q hq L hL
      rcases List.mem_append.mp hq with hqa | hqm
      · rcases hpre q hqa L hL with hin | hdone
        · rw [popl_decomp hp] at hin
          rcases List.mem_append.mp hin with hr | hg0
          · left
            exact (unique_mem_iff _ L).mpr (List.mem_append_left _ hr)
          · right
            have : L = g0 := by simpa using hg0
            subst this
            intro m hm
            exact acc_sub inv _ _ _ r h m (List.mem_append_right _ hm)
        · right
          exact hdone
      · left
        apply (unique_mem_iff _ L).mpr
        apply List.mem_append_right
        apply (unique_mem_iff _ L).mpr
        exact List.mem_flatten.mpr ⟨ requires q, List.mem_map.mpr ⟨q, hqm, rfl⟩, hL⟩

theorem acc_sources (inv : Invoice) (R : String → Prop)
    (hR : ∀ g, R g → ∀ m ∈ parcels_in inv g, ∀ g' ∈ requires m, R g') :
    ∀ fuel (groups : List String) (acc r : List Parcel),
      parcels_required_by_acc inv fuel groups acc = some r →
      (∀ g ∈ groups, R g) →
      ∀ q ∈ r, q ∈ acc ∨ ∃ g, R g ∧ q ∈ parcels_in inv g := by
  intro fuel
  induction fuel with
  | zero =>
    intro groups acc r h
    rw [acc_zero] at h
    exact absurd h (by simp)
  | succ n ih =>
    intro groups acc r h hgroups q hq
    cases hp : pop_last groups with
    | none =>
      rw [acc_step_none hp] at h
      exact Or.inl ((Option.some.inj h) ▸ hq)
    | some gr =>
      obtain ⟨g0, rest⟩ := gr
      rw [acc_step_some hp] at h
      have hg0 : R g0 := by
        refine hgroups g0 ?_
        rw [popl_decomp hp]
        exact List.mem_append_right _ (List.mem_cons_self _ _)
      have hnew : ∀ g ∈ unique (rest ++
          unique ((( parcels_in inv g0).map (fun p => requires p)).flatten)), R g := by
        intro g hgm
        rcases List.mem_append.mp ((unique_mem_iff _ g).mp hgm) with hr | hq'
        · refine hgroups g ?_
          rw [popl_decomp hp]
          exact List.mem_append_left _ hr
        · obtain ⟨l, hl, hgl⟩ := List.mem_flatten.mp ((unique_mem_iff _ g).mp hq')
          obtain ⟨m, hm, rfl⟩ := List.mem_map.mp hl
          exact hR g0 hg0 m hm g hgl
      rcases ih _ _ r h hnew q hq with hacc | hex
      · rcases List.mem_append.mp hacc with h1 | h1
        · exact Or.inl h1
        · exact Or.inr ⟨g0, hg0, h1⟩
      · exact Or.inr hex

theorem acc_emptyinv (inv : Invoice) (hinv : inv.parcel = none) :
    ∀ fuel (groups : List String) (acc : List Parcel), groups.length < fuel →
      parcels_required_by_acc inv fuel groups acc = some acc := by
  intro fuel
  induction fuel with
  | zero =>
    intro groups acc h
    exact absurd h (by omega)
  | succ n ih =>
    intro groups acc hlen
    cases hp : pop_last groups with
    | none => exact acc_step_none hp inv n acc
    | some gr =>
      obtain ⟨g0, rest⟩ := gr
      rw [acc_step_some hp]
      have hpi : parcels_in inv g0 = [] := by simp [parcels_in, hinv]
      rw [hpi]
      simp only [List.map_nil, List.flatten_nil, List.append_nil]
      have hun : unique ([] : List String) = [] := rfl
      rw [hun, List.append_nil]
      refine ih ( unique rest) acc ?_
      have h1 : ( unique rest).length ≤ rest.length := ubk_length id [] rest
      have h2 : groups.length = rest.length + 1 := by
        rw [popl_decomp hp]
        simp
      omega

/-- A group label reachable from the seed labels by alternating the
`parcels_in` join with the `requires` relation: exactly the labels the
frontier of `parcels_required_by_acc` can ever expand. -/
inductive ReachableLabel (inv : Invoice) (seeds : List String) : String → Prop
  | init : ∀ g, g ∈ seeds → ReachableLabel inv seeds g
  | step : ∀ g m g', ReachableLabel inv seeds g → m ∈ parcels_in inv g →
      g' ∈ requires m → ReachableLabel inv seeds g'

/-- On the Scenario D manifest the frontier of `parcels_required_by_acc`
alternates between `[db, web]` and `[db, cache]` forever: at every fuel the
recursion is still running. -/
theorem invD_cycle : ∀ n,
    (∀ a, parcels_required_by_acc invD n ["db", "web"] a = none) ∧
    (∀ a, parcels_required_by_acc invD n ["db", "cache"] a = none) := by
  intro n
  induction n with
  | zero => exact ⟨fun a => rfl, fun a => rfl⟩
  | succ m ih =>
    constructor
    · intro a
      have hstep := @acc_step_some ["db", "web"] "web" ["db"] rfl invD m a
      rw [hstep]
      exact ih.2 (a ++ parcels_in invD "web")
    · intro a
      have hstep := @acc_step_some ["db", "cache"] "cache" ["db"] rfl invD m a
      rw [hstep]
      exact ih.1 (a ++ parcels_in invD "cache")

/-! ### Claim theorems -/

/-- C1: the claim says that on the Scenario D manifest (where `parcelD`
requires `[web]`, closing a cycle with `cache`) `parcels_required_by`
terminates and returns `{parcelB, parcelC, parcelD}`.  The code has no
visited-label set: its frontier alternates between `[db, cache]` and
`[db, web]` forever, so the recursion returns within NO amount of fuel —
it diverges, and the accumulator grows by one parcel per step. -/
theorem c1_scenarioD_diverges : ∀ fuel, parcels_required_by invD parcelA fuel = none := by
  intro fuel
  have h := (invD_cycle fuel).1 []
  unfold parcels_required_by
  have hreq : ( requires parcelA) = ["db", "web"] := rfl
  rw [hreq, h]
  rfl

/-- C2: on the acyclic Scenario A/B manifest, any terminating run of
`parcels_required_by` seeded from `parcelA` returns exactly the set
`{parcelB, parcelC, parcelD}`. -/
theorem c2_scenarioAB (fuel : Nat) (r : List Parcel)
    (h : parcels_required_by invB parcelA fuel = some r) :
    ∀ q, q ∈ r ↔ (q = parcelB ∨ q = parcelCb ∨ q = parcelDb) := by
  have h4 : parcels_required_by_acc invB 4 ( requires parcelA) [] =
      some [parcelCb, parcelB, parcelDb] := by decide
  unfold parcels_required_by at h
  obtain ⟨a, ha, rfl⟩ := Option.map_eq_some'.mp h
  obtain rfl : a = [parcelCb, parcelB, parcelDb] := acc_det ha h4
  intro q
  have hu : unique_by (fun q => q.label.sha256) [parcelCb, parcelB, parcelDb] =
      [parcelCb, parcelB, parcelDb] := by decide
  rw [hu]
  simp only [List.mem_cons, List.not_mem_nil, or_false]
  tauto

theorem c2_scenarioAB_witness :
    parcelB ∈ ([parcelCb, parcelB, parcelDb] : List Parcel) ∧
    parcelCb ∈ ([parcelCb, parcelB, parcelDb] : List Parcel) ∧
    parcelDb ∈ ([parcelCb, parcelB, parcelDb] : List Parcel) :=
  ⟨(c2_scenarioAB 4 [parcelCb, parcelB, parcelDb] (by decide) parcelB).mpr (Or.inl rfl),
   (c2_scenarioAB 4 [parcelCb, parcelB, parcelDb] (by decide) parcelCb).mpr
     (Or.inr (Or.inl rfl)),
   (c2_scenarioAB 4 [parcelCb, parcelB, parcelDb] (by decide) parcelDb).mpr
     (Or.inr (Or.inr rfl))⟩

/-- C3: every terminating run of `parcels_required_by` returns a sequence
with pairwise distinct fingerprints, and each returned entry is the FIRST
occurrence of its fingerprint in the pre-deduplication accumulator. -/
theorem c3_dedup_first (inv : Invoice) (p : Parcel) (fuel : Nat) (r : List Parcel)
    (h : parcels_required_by inv p fuel = some r) :
    List.Pairwise (fun x y => x.label.sha256 ≠ y.label.sha256) r ∧
    ∀ a, parcels_required_by_acc inv fuel ( requires p) [] = some a →
      ∀ x ∈ r, ∃ t₁ t₂, a = t₁ ++ x :: t₂ ∧ ∀ z ∈ t₁, z.label.sha256 ≠ x.label.sha256 := by
  unfold parcels_required_by at h
  obtain ⟨a0, ha0, rfl⟩ := Option.map_eq_some'.mp h
  constructor
  · exact ubk_pairwise _ [] a0
  · intro a ha x hx
    obtain rfl : a0 = a := by
      rw [ha0] at ha
      exact Option.some.inj ha
    exact ubk_first _ [] a0 x hx

theorem c3_dedup_first_witness :
    List.Pairwise (fun x y => x.label.sha256 ≠ y.label.sha256)
      ([parcelCc, parcelDb, parcelB] : List Parcel) ∧
    ∃ t₁ t₂, ([parcelCc, parcelDb, parcelB, parcelDb] : List Parcel) =
        t₁ ++ parcelDb :: t₂ ∧ ∀ z ∈ t₁, z.label.sha256 ≠ parcelDb.label.sha256 :=
  ⟨(c3_dedup_first invC parcelA 5 [parcelCc, parcelDb, parcelB] (by decide)).1,
   (c3_dedup_first invC parcelA 5 [parcelCc, parcelDb, parcelB] (by decide)).2
     [parcelCc, parcelDb, parcelB, parcelDb] (by decide) parcelDb (by decide)⟩

/-- C4: the result of any terminating run is a fixed point of the closure:
for every returned parcel `q` and every label `L` it requires, every member
of `parcels_in inv L` already has its fingerprint in the result. -/
theorem c4_fixed_point (inv : Invoice) (p : Parcel) (fuel : Nat) (r : List Parcel)
    (h : parcels_required_by inv p fuel = some r) :
    ∀ q ∈ r, ∀ L ∈ requires q, ∀ m ∈ parcels_in inv L,
      m.label.sha256 ∈ r.map (fun x => x.label.sha256) := by
  unfold parcels_required_by at h
  obtain ⟨a, ha, rfl⟩ := Option.map_eq_some'.mp h
  intro q hq L hL m hm
  have hqa : q ∈ a := ubk_subset _ [] a q hq
  have hma : m ∈ a := by
    refine acc_closure inv fuel _ [] a ha ?_ q hqa L hL m hm
    intro q' hq'
    exact absurd hq' (List.not_mem_nil q')
  rcases ubk_keys (fun x => x.label.sha256) [] a m hma with hfalse | hex
  · exact absurd hfalse (List.not_mem_nil _)
  · obtain ⟨y, hy, hk⟩ := hex
    exact List.mem_map.mpr ⟨y, hy, hk⟩

theorem c4_fixed_point_witness :
    parcelDb.label.sha256 ∈
      ([parcelCc, parcelDb, parcelB] : List Parcel).map (fun x => x.label.sha256) :=
  c4_fixed_point invC parcelA 5 [parcelCc, parcelDb, parcelB] (by decide)
    parcelB (by decide) "cache" (by decide) parcelDb (by decide)

/-- C5: every parcel in the result is a member of some label reachable from
the seed's requirement labels, so when no reachable (expandable) group label
has a member carrying the starting parcel's fingerprint, that fingerprint
does not appear in the output. -/
theorem c5_seed_excluded (inv : Invoice) (p : Parcel) (fuel : Nat) (r : List Parcel)
    (h : parcels_required_by inv p fuel = some r)
    (hmem : ∀ g, ReachableLabel inv ( requires p) g →
      ∀ m ∈ parcels_in inv g, m.label.sha256 ≠ p.label.sha256) :
    p.label.sha256 ∉ r.map (fun x => x.label.sha256) := by
  unfold parcels_required_by at h
  obtain ⟨a, ha, rfl⟩ := Option.map_eq_some'.mp h
  intro hc
  obtain ⟨q, hq, hkey⟩ := List.mem_map.mp hc
  have hqa : q ∈ a := ubk_subset _ [] a q hq
  have hsrc := acc_sources inv (ReachableLabel inv ( requires p))
    (fun g hg m hm g' hg' => ReachableLabel.step g m g' hg hm hg')
    fuel ( requires p) [] a ha (fun g hg => ReachableLabel.init g hg) q hqa
  rcases hsrc with h0 | ⟨g, hgR, hgq⟩
  · exact absurd h0 (List.not_mem_nil q)
  · exact hmem g hgR q hgq hkey

theorem c5_seed_excluded_witness :
    parcelA.label.sha256 ∉
      ([parcelCb, parcelB, parcelDb] : List Parcel).map (fun x => x.label.sha256) := by
  refine c5_seed_excluded invB parcelA 4 [parcelCb, parcelB, parcelDb] (by decide) ?_
  intro g _ m hm hsha
  have hf : m ∈ List.filter (fun p => is_member_of p g)
      [parcelA, parcelB, parcelCb, parcelDb] := hm
  have h1 : m ∈ [parcelA, parcelB, parcelCb, parcelDb] := (List.mem_filter.mp hf).1
  have h2 : is_member_of m g = true := (List.mem_filter.mp hf).2
  simp only [List.mem_cons, List.not_mem_nil, or_false] at h1
  rcases h1 with rfl | rfl | rfl | rfl
  · simp [is_member_of, parcelA] at h2
  · exact absurd hsha (by decide)
  · exact absurd hsha (by decide)
  · exact absurd hsha (by decide)

/-- C6: `parcels_in` returns exactly the parcels of the manifest for which
`is_member_of` holds, in manifest order; an absent parcel field or an empty
manifest yields the empty sequence. -/
theorem c6_parcels_in (inv : Invoice) (group : String) :
    parcels_in inv group = (inv.parcel.getD []).filter (fun p => is_member_of p group) ∧
    parcels_in ⟨none⟩ group = [] ∧
    parcels_in ⟨some []⟩ group = [] ∧
    ∀ q, q ∈ parcels_in inv group ↔
      (q ∈ inv.parcel.getD [] ∧ is_member_of q group = true) := by
  have hfil : parcels_in inv group =
      (inv.parcel.getD []).filter (fun p => is_member_of p group) := by
    cases h : inv.parcel with
    | none => simp [parcels_in, h]
    | some ps => simp [parcels_in, h]
  refine ⟨hfil, rfl, rfl, ?_⟩
  intro q
  rw [hfil]
  simp [List.mem_filter]

/-- C7: `requires` returns the parcel's declared requires list itself
(source order preserved), and the empty list when the conditions block or
its requires field is absent. -/
theorem c7_requires (p : Parcel) :
    requires p = (Option.bind p.conditions (fun c => c.requires)).getD [] := by
  cases h : p.conditions with
  | none => simp [requires, h]
  | some c =>
    cases hr : c.requires with
    | none => simp [requires, h, hr]
    | some l => simp [requires, h, hr]

/-- C8: `has_annotation` is true iff the annotation mapping is present and
contains the key; `is_member_of` is true iff the member_of list is present
and contains the group (exact string match); both are false — never an
error — when the relevant optional field is absent. -/
theorem c8_queries (p : Parcel) (key group : String) :
    ( has_annotation p key = true ↔
      ∃ m, p.label.annotations = some m ∧ ∃ kv, kv ∈ m ∧ kv.1 = key) ∧
    ( is_member_of p group = true ↔
      ∃ l, Option.bind p.conditions (fun c => c.member_of) = some l ∧ group ∈ l) ∧
    (p.label.annotations = none → has_annotation p key = false) ∧
    (Option.bind p.conditions (fun c => c.member_of) = none →
      is_member_of p group = false) := by
  refine ⟨?_, ?_, ?_, ?_⟩
  · cases h : p.label.annotations with
    | none => simp [ has_annotation, h]
    | some m => simp [ has_annotation, h, List.any_eq_true, beq_iff_eq]
  · cases h : p.conditions with
    | none => simp [is_member_of, h]
    | some c =>
      cases hc : c.member_of with
      | none => simp [is_member_of, h, hc]
      | some l => simp [is_member_of, h, hc, List.elem_iff]
  · intro h
    unfold has_annotation
    rw [h]
  · intro h
    cases hcond : p.conditions with
    | none => simp [is_member_of, hcond]
    | some c =>
      rw [hcond] at h
      have hmo : c.member_of = none := h
      unfold is_member_of
      rw [hcond]
      show (match c.member_of with
        | none => false
        | some groups => groups.contains group) = false
      rw [hmo]

theorem c8_queries_witness :
    has_annotation parcelA "k" = false ∧ is_member_of parcelA "g" = false :=
  ⟨(c8_queries parcelA "k" "g").2.2.1 rfl, (c8_queries parcelA "k" "g").2.2.2 rfl⟩

/-- C9: a seed parcel with no requires list yields an empty result; a
manifest with no parcel field yields empty `parcels_in` for every group and
an empty (terminating) resolution from every seed. -/
theorem c9_empty_cases :
    (∀ (inv : Invoice) (p : Parcel), requires p = [] →
      ∀ fuel, parcels_required_by inv p (fuel + 1) = some []) ∧
    (∀ inv : Invoice, inv.parcel = none →
      (∀ group, parcels_in inv group = []) ∧
      (∀ (p : Parcel) (fuel : Nat), ( requires p).length < fuel →
        parcels_required_by inv p fuel = some [])) := by
  constructor
  · intro inv p hreq fuel
    unfold parcels_required_by
    rw [hreq]
    rw [@acc_step_none [] rfl inv fuel []]
    rfl
  · intro inv hinv
    constructor
    · intro group
      simp [parcels_in, hinv]
    · intro p fuel hlen
      unfold parcels_required_by
      rw [acc_emptyinv inv hinv fuel ( requires p) [] hlen]
      rfl

theorem c9_empty_cases_witness :
    parcels_required_by invB parcelNoReq 1 = some [] ∧
    parcels_in invNone "db" = [] ∧
    parcels_required_by invNone parcelA 3 = some [] :=
  ⟨c9_empty_cases.1 invB parcelNoReq rfl 0,
   (c9_empty_cases.2 invNone rfl).1 "db",
   (c9_empty_cases.2 invNone rfl).2 parcelA 3 (by decide)⟩

/-- C10: `BindleConnectionInfo::new` installs the basic-auth token manager
iff both username and password are `Some`; in every other case the no-auth
manager is installed and no authorization is attached to requests. -/
theorem c10_auth_selection (url : String) (insecure : Bool) :
    (∀ u p, BindleConnectionInfo.token_manager
        (BindleConnectionInfo.new url insecure (some u) (some p)) =
      TokenManagerKind.httpBasic u p) ∧
    (∀ password, BindleConnectionInfo.token_manager
        (BindleConnectionInfo.new url insecure none password) =
      TokenManagerKind.noToken) ∧
    (∀ username, BindleConnectionInfo.token_manager
        (BindleConnectionInfo.new url insecure username none) =
      TokenManagerKind.noToken) ∧
    (∀ (username password : Option String) (headers : List (String × String)),
      username = none ∨ password = none →
      applyAuthHeader
        (BindleConnectionInfo.token_manager
          (BindleConnectionInfo.new url insecure username password)) headers = headers) := by
  refine ⟨fun u p => rfl, fun password => ?_, fun username => ?_, ?_⟩
  · cases password <;> rfl
  · cases username <;> rfl
  · rintro username password headers (rfl | rfl)
    · cases password <;> rfl
    · cases username <;> rfl

theorem c10_auth_selection_witness :
    applyAuthHeader
      (BindleConnectionInfo.token_manager
        (BindleConnectionInfo.new "http://bindle.local" false (some "alice") none))
      [("Accept", "toml")] = [("Accept", "toml")] :=
  (c10_auth_selection "http://bindle.local" false).2.2.2 (some "alice") none
    [("Accept", "toml")] (Or.inr rfl)
